import Mathlib

/-!
Verification of the dividend-aggregation engine of the stock-api-proxy
repository (app.py).  The Python module concatenates several variants of
each function; as in Python, the later definition overrides the earlier
one, so the effective program is the last variant of each function
(header_index, get_all_pages, fetch_dividend_stats, stock).  The
definitions below are a shallow embedding of those effective definitions.

Modelling conventions:
* Python floats are modelled as exact rationals; round(x, n) is modelled
  as decimal round-half-even on rationals.  Non-finite float literals
  (inf, nan) and PEP-515 digit-group underscores never occur in the
  scraped tokens and are outside the model of float().
* HTML documents are modelled post-BeautifulSoup: a Page carries its
  tables and the already-resolved absolute address of its next-page
  affordance (the li.next / a[rel=next] discovery and urljoin resolution
  are library behaviour, external to the repository code).
* A table carries the text of its th header cells (as produced by
  get_text(strip=True)) and the full list of tr rows, the header row
  included, matching find_all("tr").
* requests.get is modelled as an oracle String -> Option Page, none
  standing for a raised transport exception; Python exceptions are
  modelled with Except.
* The while-loop of get_all_pages is modelled with explicit fuel; the
  fuelOut outcome marks an execution that has not terminated within the
  given number of iterations.
* The debug side channel of fetch_dividend_stats (debug=False path is
  modelled) is a read-only diagnostic and is omitted.
-/

/-! ### Characters and Python string primitives -/

abbrev Chars := List Char

/-- ASCII whitespace as recognised by str.strip / float (space, tab,
newline, carriage return, vertical tab, form feed). -/
def isWsChar (c : Char) : Bool :=
  c.toNat = 32 || c.toNat = 9 || c.toNat = 10 || c.toNat = 13 ||
  c.toNat = 11 || c.toNat = 12

def isDigitChar (c : Char) : Bool :=
  48 ≤ c.toNat && c.toNat ≤ 57

/-- str.lower on an ASCII character (the scraped tokens are ASCII apart
from the cent sign, which lower leaves unchanged). -/
def lowerChar (c : Char) : Char :=
  if 65 ≤ c.toNat ∧ c.toNat ≤ 90 then Char.ofNat (c.toNat + 32) else c

/-- str.upper on an ASCII character. -/
def upperChar (c : Char) : Char :=
  if 97 ≤ c.toNat ∧ c.toNat ≤ 122 then Char.ofNat (c.toNat - 32) else c

def pyLowerL (l : Chars) : Chars := l.map lowerChar

def pyUpperL (l : Chars) : Chars := l.map upperChar

/-- Drop a maximal run of p-satisfying characters from the end of a list. -/
def endDrop (p : Char → Bool) : Chars → Chars
  | [] => []
  | a :: t =>
    match endDrop p t with
    | [] => if p a then [] else [a]
    | r => a :: r

/-- str.strip(): remove leading and trailing whitespace. -/
def pyStripL (l : Chars) : Chars := endDrop isWsChar (l.dropWhile isWsChar)

def pyLower (s : String) : String := ⟨pyLowerL s.data⟩
def pyUpper (s : String) : String := ⟨pyUpperL s.data⟩
def pyStrip (s : String) : String := ⟨pyStripL s.data⟩

/-- Does the second list begin with the first? -/
def begMatch : Chars → Chars → Bool
  | [], _ => true
  | _ :: _, [] => false
  | a :: as, b :: bs => a = b && begMatch as bs

/-- Python substring containment: n occurs contiguously in h. -/
def subOf (n : Chars) : Chars → Bool
  | [] => begMatch n []
  | h :: t => begMatch n (h :: t) || subOf n t

/-- Python membership test: needle in hay (for strings). -/
def strContains (hay needle : String) : Bool := subOf needle.data hay.data

def natOfDigits (l : Chars) : Nat :=
  l.foldl (fun a c => 10 * a + (c.toNat - 48)) 0

/-- Optional leading sign of a float token. -/
def signSplit (l : Chars) : ℚ × Chars :=
  match l with
  | c :: t => if c = '+' then (1, t) else if c = '-' then (-1, t) else (1, c :: t)
  | [] => (1, [])

/-- Optional fractional part (a dot followed by digits). -/
def fracSplit (l : Chars) : Chars × Chars :=
  match l with
  | c :: t => if c = '.' then (t.takeWhile isDigitChar, t.dropWhile isDigitChar)
              else ([], c :: t)
  | [] => ([], [])

/-- Optional sign of a float exponent. -/
def expSignSplit (l : Chars) : Int × Chars :=
  match l with
  | c :: t => if c = '+' then (1, t) else if c = '-' then (-1, t) else (1, c :: t)
  | [] => (1, [])

/-- Python float(): optional surrounding whitespace, optional sign,
digits with optional fractional part, optional decimal exponent; the
whole token must be consumed.  The value is modelled exactly in ℚ. -/
def pyFloatL (s : Chars) : Option ℚ :=
  let l := pyStripL s
  let sgn := (signSplit l).1
  let l1 := (signSplit l).2
  let ip := l1.takeWhile isDigitChar
  let r1 := l1.dropWhile isDigitChar
  let fp := (fracSplit r1).1
  let r2 := (fracSplit r1).2
  if ip = [] ∧ fp = [] then none
  else
    let mant : ℚ := (natOfDigits ip : ℚ) + (natOfDigits fp : ℚ) / (10 ^ fp.length)
    match r2 with
    | [] => some (sgn * mant)
    | e :: t =>
      if e = 'e' ∨ e = 'E' then
        let ed := (expSignSplit t).2.takeWhile isDigitChar
        let r3 := (expSignSplit t).2.dropWhile isDigitChar
        if ed = [] ∨ r3 ≠ [] then none
        else some (sgn * mant * (10 : ℚ) ^ ((expSignSplit t).1 * (natOfDigits ed : Int)))
      else none

def pyFloat (s : String) : Option ℚ := pyFloatL s.data

/-- Python round(x, nd): round half to even at nd decimal places,
modelled on exact rationals. -/
def pyRound (q : ℚ) (nd : Nat) : ℚ :=
  let m : ℚ := 10 ^ nd
  let s := q * m
  let fl : Int := Int.floor s
  let fr : ℚ := s - fl
  let r : Int :=
    if fr < 1 / 2 then fl
    else if 1 / 2 < fr then fl + 1
    else if fl % 2 = 0 then fl else fl + 1
  (r : ℚ) / m

/-- Python negative-index list access: l[i] with wrap-around for
negative i; none models a raised IndexError. -/
def pythonGet {α : Type} (l : List α) (i : Int) : Option α :=
  if 0 ≤ i then l.get? i.toNat
  else
    let j : Int := (l.length : Int) + i
    if 0 ≤ j then l.get? j.toNat else none

/-- Python exceptions that can escape the scraping pipeline. -/
inductive Fault where
  /-- an IndexError raised by an out-of-range row-cell lookup -/
  | indexError
  /-- a transport-level exception raised by requests.get -/
  | transport
  /-- marker for a pagination walk that exceeded its fuel: the source
  loop would still be running -/
  | diverged
  /-- a ValueError raised by the datetime.date constructor -/
  | valueError
deriving DecidableEq, Repr

/-! ### Calendar dates -/

structure PyDate where
  year : Int
  month : Nat
  day : Nat
deriving DecidableEq, Repr

/-- datetime.date comparison, lexicographic. -/
def dateLeB (a b : PyDate) : Bool :=
  decide (a.year < b.year) ||
  (decide (a.year = b.year) &&
    (decide (a.month < b.month) ||
      (decide (a.month = b.month) && decide (a.day ≤ b.day))))

def isLeapYear (y : Int) : Bool :=
  (y % 4 = 0 && ¬ y % 100 = 0) || y % 400 = 0

def daysInMonth (y : Int) (m : Nat) : Nat :=
  if m = 2 then (if isLeapYear y then 29 else 28)
  else if m = 4 ∨ m = 6 ∨ m = 9 ∨ m = 11 then 30
  else 31

/-- The datetime.date constructor: it raises ValueError for a year
outside MINYEAR..MAXYEAR (1..9999) or an impossible month or day. -/
def dateCtor (y : Int) (m d : Nat) : Except Fault PyDate :=
  if 1 ≤ y ∧ y ≤ 9999 ∧ 1 ≤ m ∧ m ≤ 12 ∧ 1 ≤ d ∧ d ≤ daysInMonth y m then
    .ok ⟨y, m, d⟩
  else .error .valueError

/-- previous_fy_bounds: the most recently completed 1 Jul - 30 Jun
fiscal year.  The source defaults the argument to utcnow's date; the
reference date is made explicit here.  Both window dates go through the
date constructor, whose ValueError (start year outside 1..9999)
propagates as a raised exception. -/
def previous_fy_bounds (today : PyDate) : Except Fault (PyDate × PyDate) :=
  let start_year : Int := if 7 ≤ today.month then today.year - 1 else today.year - 2
  match dateCtor start_year 7 1 with
  | .error e => .error e
  | .ok s =>
    match dateCtor (start_year + 1) 6 30 with
    | .error e => .error e
    | .ok e2 => .ok (s, e2)

/-! ### normalise -/

/-- normalise: trim, uppercase, and append ".AX" when the code carries
no market-suffix dot. -/
def normalise (raw : String) : String :=
  let s := pyUpper (pyStrip raw)
  if strContains s "." then s else s ++ ".AX"

/-- symbol.split(".")[0]. -/
def takeUntilDot (s : String) : String := ⟨s.data.takeWhile (fun c => ¬ c = '.')⟩

/-- normalise, unfolded to the character-list level (the same function;
normalise s = String.mk (normaliseL s.data)). -/
def normaliseL (l : Chars) : Chars :=
  let u := pyUpperL (pyStripL l)
  if subOf ['.'] u then u else u ++ ['.', 'A', 'X']

/-! ### parse_exdate -/

/-- The character replacements at the head of parse_exdate: non-breaking
space to plain space, the four unicode hyphen variants to ASCII hyphen. -/
def dashFix (c : Char) : Char :=
  if c = ' ' then ' '
  else if c = '‑' ∨ c = '‒' ∨ c = '–' ∨ c = '—' then '-'
  else c

def monthAbbrevs : List Chars :=
  [['j','a','n'], ['f','e','b'], ['m','a','r'], ['a','p','r'], ['m','a','y'],
   ['j','u','n'], ['j','u','l'], ['a','u','g'], ['s','e','p'], ['o','c','t'],
   ['n','o','v'], ['d','e','c']]

def monthFulls : List Chars :=
  [['j','a','n','u','a','r','y'], ['f','e','b','r','u','a','r','y'],
   ['m','a','r','c','h'], ['a','p','r','i','l'], ['m','a','y'],
   ['j','u','n','e'], ['j','u','l','y'], ['a','u','g','u','s','t'],
   ['s','e','p','t','e','m','b','e','r'], ['o','c','t','o','b','e','r'],
   ['n','o','v','e','m','b','e','r'], ['d','e','c','e','m','b','e','r']]

/-- strptime %d / %m: one or two digits. -/
def pNum2 (l : Chars) : Option (Nat × Chars) :=
  match l with
  | a :: b :: t =>
    if isDigitChar a then
      if isDigitChar b then some (natOfDigits [a, b], t)
      else some (natOfDigits [a], b :: t)
    else none
  | [a] => if isDigitChar a then some (natOfDigits [a], []) else none
  | [] => none

/-- A literal whitespace in a strptime format matches a nonempty
whitespace run. -/
def pSpace (l : Chars) : Option Chars :=
  match l with
  | c :: t => if isWsChar c then some (t.dropWhile isWsChar) else none
  | [] => none

def pLit (c : Char) (l : Chars) : Option Chars :=
  match l with
  | a :: t => if a = c then some t else none
  | [] => none

/-- strptime %Y: exactly four digits. -/
def pYear4 (l : Chars) : Option (Int × Chars) :=
  match l with
  | a :: b :: c :: d :: t =>
    if isDigitChar a && isDigitChar b && isDigitChar c && isDigitChar d then
      some ((natOfDigits [a, b, c, d] : Int), t)
    else none
  | _ => none

/-- strptime %y: two digits, 00-68 mapped to the 2000s. -/
def pYear2 (l : Chars) : Option (Int × Chars) :=
  match l with
  | a :: b :: t =>
    if isDigitChar a && isDigitChar b then
      let v := natOfDigits [a, b]
      some ((if v ≤ 68 then (2000 + v : Int) else (1900 + v : Int)), t)
    else none
  | _ => none

/-- Case-insensitive month-name lookup on a candidate list; returns the
1-based month and the rest of the input. -/
def pMonthFrom (names : List Chars) (l : Chars) : Option (Nat × Chars) :=
  let low := pyLowerL l
  let rec go (i : Nat) : List Chars → Option (Nat × Chars)
    | [] => none
    | n :: rest =>
      if begMatch n low then some (i + 1, l.drop n.length)
      else go (i + 1) rest
  go 0 names

/-- datetime.date construction under strptime: the ValueError of an
impossible calendar date is caught, falling through to the next format. -/
def mkValidDate (y : Int) (m d : Nat) : Option PyDate :=
  (dateCtor y m d).toOption

/-- strptime demands that the whole string be consumed. -/
def finDate (y : Int) (m d : Nat) (rest : Chars) : Option PyDate :=
  if rest = [] then mkValidDate y m d else none

def fmtDayNameYear (mons : List Chars) (yparse : Chars → Option (Int × Chars))
    (sep : Chars → Option Chars) (l : Chars) : Option PyDate := do
  let (d, r1) ← pNum2 l
  let r2 ← sep r1
  let (m, r3) ← pMonthFrom mons r2
  let r4 ← sep r3
  let (y, r5) ← yparse r4
  finDate y m d r5

def fmtDayMonthSlash (l : Chars) : Option PyDate := do
  let (d, r1) ← pNum2 l
  let r2 ← pLit '/' r1
  let (m, r3) ← pNum2 r2
  let r4 ← pLit '/' r3
  let (y, r5) ← pYear4 r4
  finDate y m d r5

/-- parse_exdate: normalise unicode noise, then try the ordered strptime
formats of the source.  The final dateutil natural-language fallback is a
general-purpose library parser; it is modelled conservatively as a parse
failure (none), which no theorem below depends on. -/
def parse_exdate (s : String) : Option PyDate :=
  let l := pyStripL (s.data.map dashFix)
  (fmtDayNameYear monthAbbrevs pYear4 pSpace l).orElse fun _ =>
  (fmtDayNameYear monthFulls pYear4 pSpace l).orElse fun _ =>
  (fmtDayNameYear monthAbbrevs pYear4 (pLit '-') l).orElse fun _ =>
  (fmtDayNameYear monthAbbrevs pYear2 (pLit '-') l).orElse fun _ =>
  (fmtDayMonthSlash l).orElse fun _ =>
  (fmtDayNameYear monthAbbrevs pYear2 pSpace l).orElse fun _ =>
  none

/-! ### Amount parsing -/

/-- A td element: its visible text (get_text with space separator and
strip=True) and its raw inner markup (decode_contents). -/
structure Cell where
  text : String
  html : String
deriving DecidableEq, Repr

/-- A cell whose markup is plain text. -/
def mkCell (s : String) : Cell := ⟨s, s⟩

/-- _parse_num: float conversion with an optional division by 100 for
cents-denominated tokens. -/
def _parse_num (num : String) (cents_hint : Bool) : Option ℚ :=
  (pyFloat num).map fun v => if cents_hint then v / 100 else v

/-- The unit group of the amount regex: at the current position, try
cpu, then c, then the cent sign, case-insensitively; empty when none
matches. -/
def unitAt (l : Chars) : String :=
  match l with
  | a :: b :: c :: _ =>
    if lowerChar a = 'c' ∧ lowerChar b = 'p' ∧ lowerChar c = 'u' then "cpu"
    else if lowerChar a = 'c' then "c"
    else if a = '¢' then "¢"
    else ""
  | a :: _ =>
    if lowerChar a = 'c' then "c" else if a = '¢' then "¢" else ""
  | [] => ""

/-- Given input whose head is a digit, match the regex
(digits (. digits)?) followed by optional whitespace and the optional
unit group; returns (group 1, group 2 lowered). -/
def matchNumAt (l : Chars) : String × String :=
  let ds := l.takeWhile isDigitChar
  let r1 := l.dropWhile isDigitChar
  let fr : Chars × Chars :=
    match r1 with
    | c :: d :: t =>
      if c = '.' ∧ isDigitChar d = true then
        ('.' :: d :: t.takeWhile isDigitChar, t.dropWhile isDigitChar)
      else ([], r1)
    | _ => ([], r1)
  let r3 := fr.2.dropWhile isWsChar
  (⟨ds ++ fr.1⟩, unitAt r3)

/-- re.search for the amount pattern: the leftmost match starts at the
first digit of the string. -/
def reFirstNum : Chars → Option (String × String)
  | [] => none
  | c :: rest =>
    if isDigitChar c then some (matchNumAt (c :: rest)) else reFirstNum rest

/-- clean_amount_cell: dollar-stripped float conversion of the visible
text first (cents when a c occurs anywhere in the text), then a regex
scan of the raw markup for the first number and an optional unit
directly after it. -/
def clean_amount_cell (td : Cell) : Option ℚ :=
  let txt := td.text
  let amt := _parse_num ⟨(pyLowerL txt.data).filter (fun c => ¬ c = '$')⟩
      (strContains (pyLower txt) "c")
  match amt with
  | some a => some a
  | none =>
    match reFirstNum td.html.data with
    | none => none
    | some (num, unit) =>
      _parse_num num (unit = "cpu" ∨ unit = "c" ∨ unit = "¢")

/-! ### Table model and column resolution -/

structure Table where
  /-- texts of the th cells, as get_text(strip=True) yields them -/
  headers : List String
  /-- all tr rows of the table, the header row included -/
  trs : List (List Cell)
deriving Repr

structure Page where
  tables : List Table
  /-- resolved absolute address of the next-page affordance, if any -/
  next : Option String
deriving Repr

/-- wanted_table: the space-joined lowered header text must contain
"ex", "dividend" and "date". -/
def wanted_table (t : Table) : Bool :=
  let hdr := String.intercalate " " (t.headers.map pyLower)
  strContains hdr "ex" && strContains hdr "dividend" && strContains hdr "date"

/-- enumerate-style first index satisfying p, starting at offset i. -/
def findIdxAux (p : String → Bool) : List String → Nat → Option Nat
  | [], _ => none
  | h :: t, i => if p h then some i else findIdxAux p t (i + 1)

/-- The exact-match tier of header_index: all candidates are tried for a
trimmed exact match before any substring match is considered. -/
def exactTier (ns : List String) (headers : List String) : Option Nat :=
  match ns with
  | [] => none
  | n :: t =>
    match findIdxAux (fun h => pyStrip h = n) headers 0 with
    | some i => some i
    | none => exactTier t headers

/-- The substring fallback tier of header_index. -/
def subTier (ns : List String) (headers : List String) : Option Nat :=
  match ns with
  | [] => none
  | n :: t =>
    match findIdxAux (fun h => strContains h n) headers 0 with
    | some i => some i
    | none => subTier t headers

/-- header_index: lower the needles, try every needle for an exact
trimmed match, then every needle for a substring match. -/
def header_index (headers : List String) (needles : List String) : Option Nat :=
  let ns := needles.map pyLower
  match exactTier ns headers with
  | some i => some i
  | none => subTier ns headers

/-! ### Pagination walker and pipeline -/

/-- Outcome of the while-loop of get_all_pages under explicit fuel. -/
inductive CrawlResult where
  | done (pages : List Page)
  /-- a fetch raised (requests exception propagates) -/
  | failed
  /-- the loop did not finish within the given number of iterations -/
  | fuelOut
deriving Repr

/-- External world: the network fetch oracle (none = raised transport
exception; the response text is parsed unconditionally, matching
sess.get(url).text) and the yfinance price oracle (none = raised). -/
structure World where
  fetch : String → Option Page
  price : String → Option ℚ

def crawlLoop (f : String → Option Page) : Nat → String → List Page → CrawlResult
  | 0, _, _ => .fuelOut
  | fuel + 1, url, acc =>
    match f url with
    | none => .failed
    | some p =>
      match p.next with
      | none => .done (acc ++ [p])
      | some nxt => crawlLoop f fuel nxt (acc ++ [p])

/-- get_all_pages: follow next links from the start address; the source
loop has no visited set and no iteration cap, so it is given explicit
fuel here. -/
def get_all_pages (f : String → Option Page) (fuel : Nat) (start_url : String) : CrawlResult :=
  crawlLoop f fuel start_url []

def ROWS_PER_PAGE : Nat := 250

def baseUrlOf (code : String) : String :=
  "https://www.investsmart.com.au/shares/asx-" ++ pyLower code ++
  "/dividends?size=" ++ toString ROWS_PER_PAGE ++
  "&OrderBy=6&OrderByOrientation=Descending"

/-- The inner adj function of the effective fetch_dividend_stats: shift
an index by the row/header length difference when the shift is nonzero
and the index is at or after the ex column. -/
def adj (ex_i : Nat) (shift : Int) (idx : Nat) : Int :=
  if ¬ shift = 0 ∧ ex_i ≤ idx then (idx : Int) + shift else (idx : Int)

/-- Row-cell access; a failed lookup is a raised IndexError. -/
def pyGetE (l : List Cell) (i : Int) : Except Fault Cell :=
  match pythonGet l i with
  | some c => .ok c
  | none => .error .indexError

/-- One scraped row reduced to its three parsed fields: ex-date, amount,
franking percent (re.sub keeping digits and dots, float, 0.0 on failure). -/
abbrev RowTriple := Option PyDate × Option ℚ × ℚ

/-- The body of the row loop up to the aggregation guard: the three cell
lookups (each may raise IndexError) and the three field parses. -/
def rowFields (hdrsLen : Nat) (ex_i div_i : Nat) (fran_i : Option Nat)
    (tds : List Cell) : Except Fault RowTriple := do
  let shift : Int := (tds.length : Int) - (hdrsLen : Int)
  let exCell ← pyGetE tds (adj ex_i shift ex_i)
  let exd := parse_exdate exCell.text
  let amtCell ← pyGetE tds (adj ex_i shift div_i)
  let amt := clean_amount_cell amtCell
  let franTxt ←
    match fran_i with
    | some fi => do
      let c ← pyGetE tds (adj ex_i shift fi)
      pure c.text
    | none => pure ""
  let frPct : ℚ :=
    if franTxt = "" then 0
    else
      match pyFloatL (franTxt.data.filter (fun c => isDigitChar c || c = '.')) with
      | some v => v
      | none => 0
  pure (exd, amt, frPct)

/-- The aggregation guard and accumulation of the row loop:
inside = bool(exd and amt and fy_start <= exd <= fy_end); a None or
zero amount is falsy and contributes nothing. -/
def accumStep (w : PyDate × PyDate) (acc : ℚ × ℚ) (t : RowTriple) : ℚ × ℚ :=
  match t.1, t.2.1 with
  | some d, some a =>
    if ¬ a = 0 ∧ (dateLeB w.1 d && dateLeB d w.2) = true then
      (acc.1 + a, acc.2 + a * (t.2.2 / 100))
    else acc
  | _, _ => acc

/-- The final return of fetch_dividend_stats: (None, None) when the cash
total is zero, otherwise the rounded total and the rounded cash-weighted
franking percentage. -/
def finishStats (acc : ℚ × ℚ) : Option ℚ × Option ℚ :=
  if acc.1 = 0 then (none, none)
  else (some (pyRound acc.1 6), some (pyRound (acc.2 / acc.1 * 100) 2))

def rowStep (w : PyDate × PyDate) (hdrsLen : Nat) (ex_i div_i : Nat)
    (fran_i : Option Nat) (acc : ℚ × ℚ) (tds : List Cell) :
    Except Fault (ℚ × ℚ) := do
  let t ← rowFields hdrsLen ex_i div_i fran_i tds
  pure (accumStep w acc t)

/-- The parsed triples of a list of rows (the row loop's field
extraction, separated from its accumulation). -/
def rowTriples (hdrsLen ex_i div_i : Nat) (fran_i : Option Nat) :
    List (List Cell) → Except Fault (List RowTriple)
  | [] => .ok []
  | r :: rs =>
    match rowFields hdrsLen ex_i div_i fran_i r with
    | .error e => .error e
    | .ok t =>
      match rowTriples hdrsLen ex_i div_i fran_i rs with
      | .error e => .error e
      | .ok ts => .ok (t :: ts)

/-- Per-table processing: resolve the columns, skip the table when the ex
or dividend column is unresolved, then run the row loop over the data
rows (the first tr excluded). -/
def processTable (w : PyDate × PyDate) (acc : ℚ × ℚ) (tbl : Table) :
    Except Fault (ℚ × ℚ) :=
  let hdrs := tbl.headers.map pyLower
  let ex_i := header_index hdrs ["ex"]
  let div_i := header_index hdrs ["dividend"]
  let fran_i := header_index hdrs ["franking"]
  match ex_i, div_i with
  | some ei, some di =>
    (tbl.trs.drop 1).foldlM (rowStep w hdrs.length ei di fran_i) acc
  | _, _ => pure acc

def processPage (w : PyDate × PyDate) (acc : ℚ × ℚ) (p : Page) :
    Except Fault (ℚ × ℚ) :=
  (p.tables.filter wanted_table).foldlM (processTable w) acc

/-- fetch_dividend_stats (debug=False): crawl all pages, accumulate the
in-window cash and franked cash over every wanted table, and produce the
final pair.  The clock read for previous_fy_bounds is the explicit today
argument; fuel bounds the unbounded pagination loop. -/
def fetch_dividend_stats (world : World) (fuel : Nat) (today : PyDate) (code : String) :
    Except Fault (Option ℚ × Option ℚ) :=
  match get_all_pages world.fetch fuel (baseUrlOf code) with
  | .failed => .error .transport
  | .fuelOut => .error .diverged
  | .done soups =>
    match previous_fy_bounds today with
    | .error e => .error e
    | .ok w => do
      let acc ← soups.foldlM (processPage w) ((0 : ℚ), (0 : ℚ))
      pure (finishStats acc)

/-! ### Flask entry point -/

/-- The well-formed HTTP responses of the /stock route. -/
inductive StockResponse where
  /-- 400: no symbol provided -/
  | badRequest
  /-- 500: price fetch failed (the only caught failure) -/
  | priceError
  /-- 200: the JSON payload -/
  | okJson (symbol : String) (price : ℚ) (dividend12 : Option ℚ) (franking : Option ℚ)
deriving Repr

/-- The /stock route (non-debug): validate the symbol, normalise it,
fetch the price under try/except, then call fetch_dividend_stats with no
exception handling whatsoever — a Fault escaping it escapes the route. -/
def stock (world : World) (fuel : Nat) (today : PyDate) (raw : String) :
    Except Fault StockResponse :=
  if pyStrip raw = "" then .ok .badRequest
  else
    let symbol := normalise raw
    let base := takeUntilDot symbol
    match world.price symbol with
    | none => .ok .priceError
    | some p => do
      let r ← fetch_dividend_stats world fuel today base
      pure (.okJson symbol p r.1 r.2)

/-! ### Specification-side definitions (from the wording of the spec) -/

/-- A parsed dividend record, as in the data model of the spec. -/
structure PaymentEvent where
  ex : PyDate
  cash : ℚ
  fr : ℚ
deriving DecidableEq, Repr

/-- The row triple of a fully parsed event. -/
def eventTriple (e : PaymentEvent) : RowTriple := (some e.ex, some e.cash, e.fr)

def inWindowB (w : PyDate × PyDate) (d : PyDate) : Bool :=
  dateLeB w.1 d && dateLeB d w.2

/-- The events the spec keeps: exactly those inside the inclusive window. -/
def specKept (w : PyDate × PyDate) (evs : List PaymentEvent) : List PaymentEvent :=
  evs.filter (fun e => inWindowB w e.ex)

def specTotal (w : PyDate × PyDate) (evs : List PaymentEvent) : ℚ :=
  ((specKept w evs).map (fun e => e.cash)).sum

def specFranked (w : PyDate × PyDate) (evs : List PaymentEvent) : ℚ :=
  ((specKept w evs).map (fun e => e.cash * (e.fr / 100))).sum

/-- A row triple qualifies when both date and amount parsed and the date
is inside the window. -/
def qualifies (w : PyDate × PyDate) (t : RowTriple) : Bool :=
  match t.1, t.2.1 with
  | some d, some _ => inWindowB w d
  | _, _ => false

def qualCash (w : PyDate × PyDate) (l : List RowTriple) : ℚ :=
  ((l.filter (qualifies w)).map (fun t => t.2.1.getD 0)).sum

def qualFranked (w : PyDate × PyDate) (l : List RowTriple) : ℚ :=
  ((l.filter (qualifies w)).map (fun t => t.2.1.getD 0 * (t.2.2 / 100))).sum

/-- The aggregation applied by the pipeline to a sequence of row
triples: the row-loop accumulation followed by the final return. -/
def runAggregate (w : PyDate × PyDate) (l : List RowTriple) : Option ℚ × Option ℚ :=
  finishStats (l.foldl (accumStep w) (0, 0))

/-- Claim-side column-shift rule of C7: advance by the length difference
exactly the indices strictly after the distribution-type column. -/
def distShiftClaim (dist_i : Nat) (shift : Int) (idx : Nat) : Int :=
  if dist_i < idx then (idx : Int) + shift else (idx : Int)

/-- Claim-side amount rule of C8: strip currency symbols, separators and
whitespace; divide by 100 exactly when the cleaned token ends with a
cents-marker (c, the cent sign, cpu, cents); else parse directly. -/
def endsWithMarker (l : Chars) : Option Chars :=
  let tryOne (m : Chars) : Option Chars :=
    if begMatch m.reverse l.reverse then some (l.take (l.length - m.length)) else none
  (tryOne ['c','e','n','t','s']).orElse fun _ =>
  (tryOne ['c','p','u']).orElse fun _ =>
  (tryOne ['¢']).orElse fun _ =>
  tryOne ['c']

def specParseClaim (txt : String) : Option ℚ :=
  let cleaned := (pyLowerL txt.data).filter
    (fun c => ¬ (c = '$' ∨ c = ',' ∨ isWsChar c = true))
  match endsWithMarker cleaned with
  | some core => (pyFloatL core).map (fun v => v / 100)
  | none => pyFloatL cleaned

/-- Claim-side column resolution of C9: candidates strictly in priority
order, each candidate trying an exact trimmed match before its own
substring fallback, so an earlier candidate always wins. -/
def headerIdxClaim (headers : List String) (needles : List String) : Option Nat :=
  let rec go : List String → Option Nat
    | [] => none
    | n :: t =>
      match findIdxAux (fun h => pyStrip h = n) headers 0 with
      | some i => some i
      | none =>
        match findIdxAux (fun h => strContains h n) headers 0 with
        | some i => some i
        | none => go t
  go (needles.map pyLower)

/-- Amended two-tier resolution (spec side, library combinators): the
earliest candidate with an exact trimmed match anywhere wins; only when
no candidate matches exactly does the earliest candidate with a
substring match win. -/
def headerIdxTwoTier (headers : List String) (needles : List String) : Option Nat :=
  let ns := needles.map pyLower
  match ns.findSome? (fun n => headers.findIdx? (fun h => pyStrip h = n)) with
  | some i => some i
  | none => ns.findSome? (fun n => headers.findIdx? (fun h => strContains h n))

/-! ### Concrete instances used by counterexamples and witnesses -/

/-- A wanted dividend table followed by one completely empty data row
(a ragged row with zero cells). -/
def raggedPage : Page :=
  ⟨[⟨["ex", "dividend", "date"],
     [[mkCell "ex", mkCell "dividend", mkCell "date"], []]⟩], none⟩

def raggedWorld : World := ⟨fun _ => some raggedPage, fun _ => some 1⟩

/-- A source whose every page advertises a next page at the same
address: a cyclic pagination trail. -/
def cyclicUrl : String := "https://www.example.com/dividends"

def cyclicPage : Page := ⟨[], some cyclicUrl⟩

def cyclicFetch : String → Option Page := fun _ => some cyclicPage

/-- A world whose dividend source raises a transport exception on every
fetch while the price source works. -/
def downWorld : World := ⟨fun _ => none, fun _ => some 10⟩

/-- A world with a reachable but empty dividend source. -/
def emptyWorld : World := ⟨fun _ => some ⟨[], none⟩, fun _ => some 5⟩

def sampleWindow : PyDate × PyDate := (⟨2024, 7, 1⟩, ⟨2025, 6, 30⟩)

/-- Two in-window events with distinct cash weights (the worked example
of the spec: 1.00 at 100 percent and 0.50 at 0 percent). -/
def sampleEvents : List PaymentEvent :=
  [⟨⟨2024, 7, 1⟩, 1, 100⟩, ⟨⟨2024, 12, 15⟩, 1/2, 0⟩]

/-! ### Theorems -/

theorem dateCtor_july (sy : Int) (h1 : 1 ≤ sy) (h2 : sy ≤ 9999) :
    dateCtor sy 7 1 = Except.ok ⟨sy, 7, 1⟩ := by
  unfold dateCtor
  rw [if_pos ⟨h1, h2, by norm_num, by norm_num, by norm_num,
    by rw [show daysInMonth sy 7 = 31 from rfl]; norm_num⟩]

theorem dateCtor_june (sy : Int) (h1 : 1 ≤ sy) (h2 : sy ≤ 9999) :
    dateCtor sy 6 30 = Except.ok ⟨sy, 6, 30⟩ := by
  unfold dateCtor
  rw [if_pos ⟨h1, h2, by norm_num, by norm_num, by norm_num,
    by rw [show daysInMonth sy 6 = 30 from rfl]⟩]

/-- previous_fy_bounds succeeds with the 1 Jul / 30 Jun pair when the
start year fits the date constructor's range, and raises otherwise. -/
theorem pfb_cases (d : PyDate) (sy : Int)
    (hsy : (if 7 ≤ d.month then d.year - 1 else d.year - 2) = sy) :
    (1 ≤ sy ∧ sy ≤ 9998 →
      previous_fy_bounds d = Except.ok (⟨sy, 7, 1⟩, ⟨sy + 1, 6, 30⟩)) ∧
    (¬ (1 ≤ sy ∧ sy ≤ 9998) →
      ∀ p : PyDate × PyDate, ¬ previous_fy_bounds d = Except.ok p) := by
  constructor
  · rintro ⟨h1, h2⟩
    simp only [previous_fy_bounds, hsy]
    rw [dateCtor_july sy h1 (by omega), dateCtor_june (sy + 1) (by omega) (by omega)]
  · intro hn p hok
    simp only [previous_fy_bounds, hsy] at hok
    by_cases ha : 1 ≤ sy ∧ sy ≤ 9999
    · have hfail : dateCtor (sy + 1) 6 30 = Except.error Fault.valueError := by
        unfold dateCtor
        rw [if_neg]
        rintro ⟨c1, c2, -⟩
        omega
      rw [dateCtor_july sy ha.1 ha.2, hfail] at hok
      simp at hok
    · have hfail : dateCtor sy 7 1 = Except.error Fault.valueError := by
        unfold dateCtor
        rw [if_neg]
        rintro ⟨c1, c2, -⟩
        exact ha ⟨c1, c2⟩
      rw [hfail] at hok
      simp at hok

/-- Claim C6 is violated in one particular: previous_fy_bounds is not
total over all dates.  For a reference date in year 1 (and for year 2
before July) the computed start year falls below datetime's MINYEAR, so
date(start_year, 7, 1) raises ValueError and no window is returned. -/
theorem previous_fy_bounds_raises :
    previous_fy_bounds ⟨1, 1, 1⟩ = Except.error Fault.valueError ∧
    previous_fy_bounds ⟨2, 6, 30⟩ = Except.error Fault.valueError ∧
    (previous_fy_bounds ⟨1, 1, 1⟩).toOption = none :=
  ⟨rfl, rfl, rfl⟩

/-- Claim C6 amended: whenever previous_fy_bounds returns a window, its
end is a 30 June, its start is the 1 July of the calendar year before
end, the start year is year-1 for July-onward reference dates and
year-2 otherwise, and the end year is start year + 1; and it returns a
window exactly when that start year lies in 1..9998 (the date
constructor's range for both bounds) - for earlier reference dates the
constructor raises ValueError, so the function is not total. -/
theorem previous_fy_bounds_valid_spec (d : PyDate) :
    (∀ s e, previous_fy_bounds d = Except.ok (s, e) →
      e.month = 6 ∧ e.day = 30 ∧ s = ⟨e.year - 1, 7, 1⟩ ∧
      s.year = (if 7 ≤ d.month then d.year - 1 else d.year - 2) ∧
      e.year = s.year + 1) ∧
    ((∃ p, previous_fy_bounds d = Except.ok p) ↔
      1 ≤ (if 7 ≤ d.month then d.year - 1 else d.year - 2) ∧
      (if 7 ≤ d.month then d.year - 1 else d.year - 2) ≤ 9998) := by
  have hall := pfb_cases d (if 7 ≤ d.month then d.year - 1 else d.year - 2) rfl
  constructor
  · intro s e hok
    by_cases hr : 1 ≤ (if 7 ≤ d.month then d.year - 1 else d.year - 2) ∧
        (if 7 ≤ d.month then d.year - 1 else d.year - 2) ≤ 9998
    · have heq := hall.1 hr
      rw [heq] at hok
      simp only [Except.ok.injEq, Prod.mk.injEq] at hok
      obtain ⟨hs, he⟩ := hok
      subst hs
      subst he
      refine ⟨rfl, rfl, ?_, rfl, rfl⟩
      simp only [PyDate.mk.injEq]
      refine ⟨by omega, trivial, trivial⟩
    · exact absurd hok (hall.2 hr (s, e))
  · constructor
    · rintro ⟨p, hp⟩
      by_contra hr
      exact hall.2 hr p hp
    · intro hr
      exact ⟨_, hall.1 hr⟩

/-- Claim C6 amended, witness: the window returned at the in-range
reference date 15 Mar 2025 satisfies every conjunct of the amended
shape. -/
theorem previous_fy_bounds_valid_witness :
    (⟨2024, 6, 30⟩ : PyDate).month = 6 ∧ (⟨2024, 6, 30⟩ : PyDate).day = 30 ∧
    (⟨2023, 7, 1⟩ : PyDate) = ⟨2024 - 1, 7, 1⟩ ∧
    (⟨2023, 7, 1⟩ : PyDate).year = (if 7 ≤ (3 : Nat) then 2025 - 1 else 2025 - 2) ∧
    (⟨2024, 6, 30⟩ : PyDate).year = 2023 + 1 :=
  (previous_fy_bounds_valid_spec ⟨2025, 3, 15⟩).1 ⟨2023, 7, 1⟩ ⟨2024, 6, 30⟩ rfl

/-- Claim C3 is violated by the code: on a cyclic pagination trail in
which every page carries a next affordance pointing at an
already-visited address, the while-loop of get_all_pages never
terminates — for every iteration bound the walk is still running.  No
maximum safety bound exists in the code. -/
theorem pagination_cyclic_trail_never_terminates (fuel : Nat) :
    get_all_pages cyclicFetch fuel cyclicUrl = CrawlResult.fuelOut := by
  suffices h : ∀ n url acc, crawlLoop cyclicFetch n url acc = CrawlResult.fuelOut by
    exact h fuel cyclicUrl []
  intro n
  induction n with
  | zero => intro url acc; rfl
  | succ k ih => intro url acc; exact ih cyclicUrl (acc ++ [cyclicPage])

/-- Claim C2 is violated by the code: a wanted table whose data row has
fewer cells than the resolved shift-adjusted indices require does not
get skipped; the lookup raises IndexError (here: an empty row under the
headers ex/dividend/date makes the ex lookup hit index -3 of an empty
list) and the fault escapes fetch_dividend_stats. -/
theorem ragged_row_raises_index_error :
    fetch_dividend_stats raggedWorld 3 ⟨2025, 3, 15⟩ "xyz" = .error .indexError := rfl

/-- Claim C1 is violated by the code: a transport-level failure of the
dividend source is not caught anywhere between requests.get and the
/stock route, so the fault escapes the top-level entry point instead of
being downgraded. -/
theorem stock_transport_fault_propagates :
    stock downWorld 5 ⟨2025, 3, 15⟩ "VHY" = .error .transport := rfl

/-- Claim C7 is violated by the code: the effective adj rule does not
consult a distribution-type column at all — it shifts every index at or
after the ex column.  Under headers [ex, distribution type, dividend,
date] (ex resolved at 0, the distribution column at 1) and a row one
cell wider than the header, the ex index 0 lies at-or-before the
distribution column, so the claim leaves it unshifted, yet the code
advances it. -/
theorem shift_not_distribution_based :
    header_index ["ex", "distribution type", "dividend", "date"] ["ex"] = some 0 ∧
    header_index ["ex", "distribution type", "dividend", "date"] ["distribution"] = some 1 ∧
    adj 0 1 0 = 1 ∧ distShiftClaim 1 1 0 = 0 ∧ (1 : Int) ≠ 0 :=
  ⟨rfl, rfl, rfl, rfl, by decide⟩

/-- Claim C7 amended: the correction advances by the row/header length
difference exactly those resolved indices at or after the ex-date
column; indices strictly before the ex-date column are looked up
unshifted.  For a wider row the shifted lookup stays inside the row
whenever the index is a header index at or after the ex column. -/
theorem shift_rule_ex_based (ex_i idx : Nat) (shift : Int) (h : ¬ shift = 0) :
    (ex_i ≤ idx → adj ex_i shift idx = (idx : Int) + shift) ∧
    (idx < ex_i → adj ex_i shift idx = (idx : Int)) ∧
    (∀ H L : Nat, shift = (L : Int) - (H : Int) → ex_i ≤ idx → idx < H → H ≤ L →
      0 ≤ adj ex_i shift idx ∧ adj ex_i shift idx < (L : Int)) := by
  unfold adj
  refine ⟨fun hle => by rw [if_pos ⟨h, hle⟩], fun hlt => ?_, fun H L hs hle hlt hHL => ?_⟩
  · rw [if_neg]
    rintro ⟨-, hle⟩
    omega
  · rw [if_pos ⟨h, hle⟩]
    constructor <;> omega

/-- Claim C7 amended, witness: with a row one wider than the header,
index 2 (at or after ex column 0) is advanced to 3, while index 0
(before ex column 2) is untouched. -/
theorem shift_rule_ex_based_witness :
    adj 0 1 2 = (2 : Int) + 1 ∧ adj 2 1 0 = (0 : Int) :=
  ⟨(shift_rule_ex_based 0 2 1 (by decide)).1 (by decide),
   (shift_rule_ex_based 2 0 1 (by decide)).2.1 (by decide)⟩

/-- Claim C9 is violated by the code: with candidates [foo, bar] and
headers [foobar, bar], the earlier candidate foo has a substring match
at header 0, yet header_index returns 1 — the later candidate bar wins
through the globally-first exact tier, while the per-candidate rule of
the claim picks 0. -/
theorem header_priority_counterexample :
    header_index ["foobar", "bar"] ["foo", "bar"] = some 1 ∧
    headerIdxClaim ["foobar", "bar"] ["foo", "bar"] = some 0 ∧
    (some 1 : Option Nat) ≠ some 0 :=
  ⟨rfl, rfl, by decide⟩

/-- The enumerate loop of header_index agrees with the library indexed
search. -/
theorem findIdxAux_eq_lib (p : String → Bool) :
    ∀ (l : List String) (i : Nat), findIdxAux p l i = List.findIdx? p l i := by
  intro l
  induction l with
  | nil => intro i; rfl
  | cons h t ih =>
    intro i
    rw [List.findIdx?_cons]
    by_cases hp : p h
    · simp [findIdxAux, hp]
    · simp [findIdxAux, hp, ih]

theorem exactTier_eq_findSome (hs : List String) :
    ∀ ns, exactTier ns hs =
      ns.findSome? (fun n => hs.findIdx? (fun h => pyStrip h = n)) := by
  intro ns
  induction ns with
  | nil => rfl
  | cons n t ih =>
    rw [List.findSome?_cons]
    unfold exactTier
    rw [findIdxAux_eq_lib]
    cases hfi : List.findIdx? (fun h => pyStrip h = n) hs 0 <;> simp [hfi, ih]

theorem subTier_eq_findSome (hs : List String) :
    ∀ ns, subTier ns hs =
      ns.findSome? (fun n => hs.findIdx? (fun h => strContains h n)) := by
  intro ns
  induction ns with
  | nil => rfl
  | cons n t ih =>
    rw [List.findSome?_cons]
    unfold subTier
    rw [findIdxAux_eq_lib]
    cases hfi : List.findIdx? (fun h => strContains h n) hs 0 <;> simp [hfi, ih]

/-- Claim C9 amended: resolution is two-tier and globally
exact-first — the earliest candidate with an exact trimmed match on any
header wins; only when no candidate matches exactly does the earliest
candidate with a substring match win. -/
theorem header_index_two_tier (hs ns : List String) :
    header_index hs ns = headerIdxTwoTier hs ns := by
  simp only [header_index, headerIdxTwoTier, exactTier_eq_findSome, subTier_eq_findSome]

/-- Equation of accumStep on a fully parsed row. -/
theorem accumStep_some (w : PyDate × PyDate) (acc : ℚ × ℚ) (d : PyDate) (av f : ℚ) :
    accumStep w acc (some d, some av, f) =
      if ¬ av = 0 ∧ (dateLeB w.1 d && dateLeB d w.2) = true then
        (acc.1 + av, acc.2 + av * (f / 100))
      else acc := rfl

theorem accumStep_noDate (w : PyDate × PyDate) (acc : ℚ × ℚ) (aOpt : Option ℚ) (f : ℚ) :
    accumStep w acc (none, aOpt, f) = acc := rfl

theorem accumStep_noAmt (w : PyDate × PyDate) (acc : ℚ × ℚ) (d : PyDate) (f : ℚ) :
    accumStep w acc (some d, none, f) = acc := rfl

/-- The row-loop accumulation computes, over any starting accumulator,
the sums of cash and franked cash of the qualifying in-window triples. -/
theorem accum_foldl (w : PyDate × PyDate) :
    ∀ (l : List RowTriple) (a b : ℚ),
      l.foldl (accumStep w) (a, b) = (a + qualCash w l, b + qualFranked w l) := by
  intro l
  induction l with
  | nil => intro a b; simp [qualCash, qualFranked]
  | cons t rest ih =>
    intro a b
    obtain ⟨dOpt, aOpt, f⟩ := t
    rw [List.foldl_cons]
    cases dOpt with
    | none =>
      have hq : qualifies w (none, aOpt, f) = false := rfl
      rw [accumStep_noDate, ih]
      simp [qualCash, qualFranked, List.filter_cons, hq]
    | some d =>
      cases aOpt with
      | none =>
        have hq : qualifies w (some d, none, f) = false := rfl
        rw [accumStep_noAmt, ih]
        simp [qualCash, qualFranked, List.filter_cons, hq]
      | some av =>
        have hq : qualifies w (some d, some av, f) = inWindowB w d := rfl
        by_cases hw : inWindowB w d = true
        · by_cases hz : av = 0
          · subst hz
            rw [accumStep_some, if_neg (fun hc => hc.1 rfl), ih]
            simp [qualCash, qualFranked, List.filter_cons, hq, hw]
          · rw [accumStep_some, if_pos ⟨hz, by simpa [inWindowB] using hw⟩, ih]
            simp only [qualCash, qualFranked, List.filter_cons, hq, hw, if_true,
              List.map_cons, List.sum_cons, Option.getD_some, Prod.mk.injEq]
            constructor <;> ring
        · have hw' : (dateLeB w.1 d && dateLeB d w.2) = false := by
            simpa [inWindowB] using hw
          rw [accumStep_some, if_neg (fun hc => by rw [hw'] at hc; exact Bool.false_ne_true hc.2),
            ih]
          simp [qualCash, qualFranked, List.filter_cons, hq, hw]

/-- Claim C5: the aggregate is the NoData pair exactly when the cash sum
of the qualifying in-window rows is exactly zero, and the two fields of
the caller-facing pair are null together. -/
theorem nodata_iff_zero_total (w : PyDate × PyDate) (l : List RowTriple) :
    ((runAggregate w l).1 = none ↔ (runAggregate w l).2 = none) ∧
    ((runAggregate w l).1 = none ↔ qualCash w l = 0) := by
  unfold runAggregate
  rw [accum_foldl w l 0 0, zero_add, zero_add]
  unfold finishStats
  by_cases h : qualCash w l = 0 <;> simp [h]

/-- Over fully parsed events, the qualifying cash sum is the spec's
windowed cash total. -/
theorem qualCash_map (w : PyDate × PyDate) (evs : List PaymentEvent) :
    qualCash w (evs.map eventTriple) = specTotal w evs := by
  unfold qualCash specTotal specKept
  rw [List.filter_map, List.map_map]
  rfl

theorem qualFranked_map (w : PyDate × PyDate) (evs : List PaymentEvent) :
    qualFranked w (evs.map eventTriple) = specFranked w evs := by
  unfold qualFranked specFranked specKept
  rw [List.filter_map, List.map_map]
  rfl

/-- Claim C4: on any finite event sequence the pipeline keeps exactly
the in-window events, and with a positive kept cash total it returns
the total rounded to 6 places and the cash-weighted franking percentage
100 * sum(cash * fr / 100) / total rounded to 2 places. -/
theorem aggregate_cash_weighted (evs : List PaymentEvent) (w : PyDate × PyDate)
    (h : 0 < specTotal w evs) :
    runAggregate w (evs.map eventTriple) =
      (some (pyRound (specTotal w evs) 6),
       some (pyRound (100 * specFranked w evs / specTotal w evs) 2)) := by
  unfold runAggregate
  rw [accum_foldl, zero_add, zero_add, qualCash_map, qualFranked_map]
  unfold finishStats
  rw [if_neg h.ne']
  simp only [Prod.mk.injEq]
  refine ⟨trivial, ?_⟩
  congr 1
  ring_nf

/-- Claim C4 witness: the spec's worked example — a 1.00 event at 100
percent franking and a 0.50 event at 0 percent inside the 2024-25
window give total 1.50 and weighted percentage 66.67. -/
theorem aggregate_cash_weighted_witness :
    runAggregate sampleWindow (sampleEvents.map eventTriple) =
      (some ((3 : ℚ) / 2), some ((6667 : ℚ) / 100)) := by
  have htot : specTotal sampleWindow sampleEvents = 1 + (1 / 2 + 0) := rfl
  have hfr : specFranked sampleWindow sampleEvents =
      1 * (100 / 100) + (1 / 2 * (0 / 100) + 0) := rfl
  have h := aggregate_cash_weighted sampleEvents sampleWindow
    (by rw [htot]; norm_num)
  rw [h, htot, hfr]
  norm_num [pyRound]

/-- Whenever fetch_dividend_stats returns normally, its two fields are
null together (the pair is either (None, None) or fully populated). -/
theorem fetchStats_ok_shape (world : World) (fuel : Nat) (today : PyDate)
    (code : String) (r : Option ℚ × Option ℚ)
    (h : fetch_dividend_stats world fuel today code = .ok r) :
    (r.1 = none ↔ r.2 = none) := by
  unfold fetch_dividend_stats at h
  cases hc : get_all_pages world.fetch fuel (baseUrlOf code) with
  | failed => rw [hc] at h; exact absurd h (by simp)
  | fuelOut => rw [hc] at h; exact absurd h (by simp)
  | done soups =>
    rw [hc] at h
    dsimp only at h
    cases hw : previous_fy_bounds today with
    | error e =>
      rw [hw] at h
      simp at h
    | ok w =>
      rw [hw] at h
      dsimp only at h
      cases hacc : List.foldlM (processPage w) ((0 : ℚ), (0 : ℚ)) soups with
      | error e =>
        rw [hacc] at h
        simp at h
      | ok acc =>
        rw [hacc] at h
        simp at h
        rw [← h]
        unfold finishStats
        by_cases hz : acc.1 = 0 <;> simp [hz]

/-- Claim C1 amended: a transport failure of the dividend source is not
downgraded but escapes the entry point (see the counterexample); when
the crawl and every row lookup succeed and the price fetch succeeds, the
caller receives the well-formed payload whose two aggregate fields are
null together. -/
theorem stock_wellformed_when_sources_ok (world : World) (fuel : Nat) (today : PyDate)
    (raw : String) (p : ℚ) (r : Option ℚ × Option ℚ)
    (hraw : ¬ pyStrip raw = "")
    (hp : world.price (normalise raw) = some p)
    (hf : fetch_dividend_stats world fuel today (takeUntilDot (normalise raw)) = .ok r) :
    stock world fuel today raw = .ok (.okJson (normalise raw) p r.1 r.2) ∧
    (r.1 = none ↔ r.2 = none) := by
  constructor
  · unfold stock
    rw [if_neg hraw]
    simp only [hp, hf, Except.bind, pure, Except.pure]
    rfl
  · exact fetchStats_ok_shape world fuel today (takeUntilDot (normalise raw)) r hf

/-- Claim C1 amended, witness: a reachable empty source with a working
price feed yields the payload with both aggregate fields null. -/
theorem stock_wellformed_witness :
    stock emptyWorld 2 ⟨2025, 3, 15⟩ "vhy" =
      .ok (.okJson (normalise "vhy") 5 none none) ∧
    ((none : Option ℚ) = none ↔ (none : Option ℚ) = none) :=
  stock_wellformed_when_sources_ok emptyWorld 2 ⟨2025, 3, 15⟩ "vhy" 5 (none, none)
    (by decide) rfl rfl

/-! ### Character and scan lemmas for the amount parser -/

theorem takeWhile_append_all {p : Char → Bool} :
    ∀ {ds r : Chars}, (∀ c ∈ ds, p c = true) →
      (ds ++ r).takeWhile p = ds ++ r.takeWhile p := by
  intro ds
  induction ds with
  | nil => intro r _; rfl
  | cons a t ih =>
    intro r h
    rw [List.cons_append, List.takeWhile_cons,
      if_pos (h a (List.mem_cons_self a t)), ih (fun c hc => h c (List.mem_cons_of_mem a hc))]
    rfl

theorem dropWhile_append_all {p : Char → Bool} :
    ∀ {ds r : Chars}, (∀ c ∈ ds, p c = true) →
      (ds ++ r).dropWhile p = r.dropWhile p := by
  intro ds
  induction ds with
  | nil => intro r _; rfl
  | cons a t ih =>
    intro r h
    rw [List.cons_append, List.dropWhile_cons,
      if_pos (h a (List.mem_cons_self a t)), ih (fun c hc => h c (List.mem_cons_of_mem a hc))]

theorem takeWhile_headF {p : Char → Bool} {a : Char} (t : Chars) (h : p a = false) :
    (a :: t).takeWhile p = [] := by
  rw [List.takeWhile_cons, if_neg (by simp [h])]

theorem dropWhile_headF {p : Char → Bool} {a : Char} (t : Chars) (h : p a = false) :
    (a :: t).dropWhile p = a :: t := by
  rw [List.dropWhile_cons, if_neg (by simp [h])]

theorem endDrop_allF {p : Char → Bool} :
    ∀ l : Chars, (∀ c ∈ l, p c = false) → endDrop p l = l := by
  intro l
  induction l with
  | nil => intro _; rfl
  | cons a t ih =>
    intro h
    unfold endDrop
    rw [ih (fun c hc => h c (List.mem_cons_of_mem a hc))]
    cases t with
    | nil => simp [h a (List.mem_cons_self a [])]
    | cons b bs => rfl

theorem stripL_allF {l : Chars} (h : ∀ c ∈ l, isWsChar c = false) : pyStripL l = l := by
  unfold pyStripL
  have hd : l.dropWhile isWsChar = l := by
    cases l with
    | nil => rfl
    | cons a t => exact dropWhile_headF t (h a (List.mem_cons_self a t))
  rw [hd]
  exact endDrop_allF l h

theorem digit_not_ws {c : Char} (h : isDigitChar c = true) : isWsChar c = false := by
  simp only [isDigitChar, Bool.and_eq_true, decide_eq_true_eq] at h
  simp only [isWsChar, Bool.or_eq_false_iff, decide_eq_false_iff_not]
  omega

theorem digit_lower {c : Char} (h : isDigitChar c = true) : lowerChar c = c := by
  simp only [isDigitChar, Bool.and_eq_true, decide_eq_true_eq] at h
  unfold lowerChar
  rw [if_neg]
  omega

theorem digit_ne {c : Char} (h : isDigitChar c = true) (x : Char)
    (hx : isDigitChar x = false) : ¬ c = x := by
  intro e
  rw [e] at h
  rw [h] at hx
  exact Bool.noConfusion hx

theorem subOf_c_digits :
    ∀ l : Chars, (∀ c ∈ l, isDigitChar c = true) → subOf ['c'] l = false := by
  intro l
  induction l with
  | nil => intro _; rfl
  | cons a t ih =>
    intro h
    unfold subOf
    rw [ih (fun c hc => h c (List.mem_cons_of_mem a hc))]
    have hne : ¬ ('c' : Char) = a :=
      fun e => digit_ne (h a (List.mem_cons_self a t)) 'c' rfl e.symm
    simp [begMatch, hne]

theorem takeWhile_all {p : Char → Bool} {l : Chars} (h : ∀ c ∈ l, p c = true) :
    l.takeWhile p = l := by
  have := takeWhile_append_all (r := []) h
  simpa using this

theorem dropWhile_all {p : Char → Bool} {l : Chars} (h : ∀ c ∈ l, p c = true) :
    l.dropWhile p = [] := by
  have := dropWhile_append_all (r := []) h
  simpa using this

theorem signSplit_digit {d : Char} (t : Chars) (hd : isDigitChar d = true) :
    signSplit (d :: t) = (1, d :: t) := by
  simp only [signSplit]
  rw [if_neg (digit_ne hd '+' rfl), if_neg (digit_ne hd '-' rfl)]

theorem fracSplit_noDot {m : Char} (ms : Chars) (hm : ¬ m = '.') :
    fracSplit (m :: ms) = ([], m :: ms) := by
  simp only [fracSplit]
  rw [if_neg hm]

/-- float() on a nonempty all-digit token is its decimal value. -/
theorem pyFloat_digits {ds : Chars} (hne : ds ≠ [])
    (hdig : ∀ c ∈ ds, isDigitChar c = true) :
    pyFloatL ds = some ((natOfDigits ds : ℚ)) := by
  obtain ⟨d, t, rfl⟩ : ∃ d t, ds = d :: t := by
    cases ds with
    | nil => exact absurd rfl hne
    | cons d t => exact ⟨d, t, rfl⟩
  have hstrip : pyStripL (d :: t) = d :: t :=
    stripL_allF (fun c hc => digit_not_ws (hdig c hc))
  have hd := hdig d (List.mem_cons_self d t)
  simp only [pyFloatL, hstrip, signSplit_digit t hd, takeWhile_all hdig,
    dropWhile_all hdig]
  rw [if_neg (fun hc => List.noConfusion hc.1)]
  show some (1 * ((natOfDigits (d :: t) : ℚ) + (natOfDigits [] : ℚ) / 10 ^ (List.length ([] : Chars)))) = _
  norm_num [natOfDigits]

/-- float() fails on an all-digit token followed by a character that is
not a digit, a dot, or an exponent marker. -/
theorem pyFloat_digits_trail {ds : Chars} (m : Char) (ms : Chars) (hne : ds ≠ [])
    (hdig : ∀ c ∈ ds, isDigitChar c = true)
    (hm : isDigitChar m = false) (hmdot : ¬ m = '.')
    (hme : ¬ m = 'e') (hmE : ¬ m = 'E')
    (hws : ∀ c ∈ m :: ms, isWsChar c = false) :
    pyFloatL (ds ++ m :: ms) = none := by
  obtain ⟨d, t, rfl⟩ : ∃ d t, ds = d :: t := by
    cases ds with
    | nil => exact absurd rfl hne
    | cons d t => exact ⟨d, t, rfl⟩
  have hd := hdig d (List.mem_cons_self d t)
  have hstrip : pyStripL ((d :: t) ++ m :: ms) = (d :: t) ++ m :: ms := by
    refine stripL_allF (fun c hc => ?_)
    rcases List.mem_append.1 hc with hc1 | hc2
    · exact digit_not_ws (hdig c hc1)
    · exact hws c hc2
  have hsign : signSplit ((d :: t) ++ m :: ms) = (1, (d :: t) ++ m :: ms) := by
    rw [List.cons_append, signSplit_digit _ hd, ← List.cons_append]
  have htake : ((d :: t) ++ m :: ms).takeWhile isDigitChar = (d :: t) ++ [] := by
    rw [takeWhile_append_all hdig, takeWhile_headF ms hm]
  have hdrop : ((d :: t) ++ m :: ms).dropWhile isDigitChar = m :: ms := by
    rw [dropWhile_append_all hdig, dropWhile_headF ms hm]
  simp only [pyFloatL, hstrip, hsign, htake, hdrop, fracSplit_noDot ms hmdot]
  rw [if_neg (fun hc => List.noConfusion (List.append_eq_nil.1 hc.1).1)]
  rw [if_neg (fun hc => hc.elim hme hmE)]

theorem reFirstNum_digit_head {d : Char} (t : Chars) (hd : isDigitChar d = true) :
    reFirstNum (d :: t) = some (matchNumAt (d :: t)) := by
  unfold reFirstNum
  rw [if_pos hd]

/-- The regex scan on an all-digit token followed by a trailing
non-digit, non-dot, non-whitespace list: group 1 is the digits and
group 2 is the unit found at the trail. -/
theorem matchNumAt_digits_trail {ds : Chars} (r : Chars)
    (hdig : ∀ c ∈ ds, isDigitChar c = true)
    (hr : r = [] ∨ ∃ m ms, r = m :: ms ∧ isDigitChar m = false ∧ ¬ m = '.' ∧
      isWsChar m = false) :
    matchNumAt (ds ++ r) = (⟨ds⟩, unitAt r) := by
  rcases hr with rfl | ⟨m, ms, rfl, hm, hmdot, hmws⟩
  · simp [matchNumAt, takeWhile_all hdig, dropWhile_all hdig]
  · have htake : (ds ++ m :: ms).takeWhile isDigitChar = ds ++ [] := by
      rw [takeWhile_append_all hdig, takeWhile_headF ms hm]
    have hdrop : (ds ++ m :: ms).dropWhile isDigitChar = m :: ms := by
      rw [dropWhile_append_all hdig, dropWhile_headF ms hm]
    simp only [matchNumAt, htake, hdrop]
    cases ms with
    | nil =>
      simp only [List.append_nil]
      rw [dropWhile_headF [] hmws]
    | cons b bs =>
      dsimp only
      rw [if_neg (fun hc => hmdot hc.1)]
      simp only [List.append_nil]
      rw [dropWhile_headF (b :: bs) hmws]

theorem lower_fix : ∀ {l : Chars}, (∀ c ∈ l, lowerChar c = c) → pyLowerL l = l := by
  intro l
  induction l with
  | nil => intro _; rfl
  | cons a t ih =>
    intro h
    show lowerChar a :: pyLowerL t = a :: t
    rw [h a (List.mem_cons_self a t), ih (fun c hc => h c (List.mem_cons_of_mem a hc))]

theorem filter_nodollar {l : Chars} (h : ∀ c ∈ l, ¬ c = '$') :
    List.filter (fun c => ¬ c = '$') l = l :=
  List.filter_eq_self.2 (fun a ha => decide_eq_true (h a ha))

/-- clean_amount_cell on a plain-text cell, with the string plumbing
unfolded. -/
theorem clean_amount_eval (L : Chars) :
    clean_amount_cell (mkCell ⟨L⟩) =
      (match _parse_num ⟨List.filter (fun c => ¬ c = '$') (pyLowerL L)⟩
          (subOf ['c'] (pyLowerL L)) with
       | some a => some a
       | none =>
         match reFirstNum L with
         | none => none
         | some (num, unit) =>
           _parse_num num (unit = "cpu" ∨ unit = "c" ∨ unit = "¢")) := rfl

/-- Claim C8 amended: the division by 100 is keyed to the first number
of the cell being immediately followed by a cents marker, not to a
marker suffix of the whole cleaned token; a bare digit token parses
directly, a digit token with a trailing c or cent sign is divided by
100, a leading c leaves the following number undivided, and a digitless
token yields None, never zero. -/
theorem amount_parse_first_number_rule (ds : Chars) (hne : ds ≠ [])
    (hdig : ∀ c ∈ ds, isDigitChar c = true) :
    clean_amount_cell (mkCell ⟨ds⟩) = some ((natOfDigits ds : ℚ)) ∧
    clean_amount_cell (mkCell ⟨ds ++ ['c']⟩) = some ((natOfDigits ds : ℚ) / 100) ∧
    clean_amount_cell (mkCell ⟨ds ++ ['¢']⟩) = some ((natOfDigits ds : ℚ) / 100) ∧
    clean_amount_cell (mkCell ⟨'c' :: ds⟩) = some ((natOfDigits ds : ℚ)) ∧
    clean_amount_cell (mkCell "-") = none := by
  obtain ⟨d, t, rfl⟩ : ∃ d t, ds = d :: t := by
    cases ds with
    | nil => exact absurd rfl hne
    | cons d t => exact ⟨d, t, rfl⟩
  set ds := d :: t with hds
  have hd : isDigitChar d = true := hdig d (List.mem_cons_self d t)
  have hlow : pyLowerL ds = ds := lower_fix (fun c hc => digit_lower (hdig c hc))
  have hnod : List.filter (fun c => ¬ c = '$') ds = ds :=
    filter_nodollar (fun c hc => digit_ne (hdig c hc) '$' rfl)
  have hpf : pyFloatL ds = some ((natOfDigits ds : ℚ)) := pyFloat_digits hne hdig
  have hpn : _parse_num ⟨ds⟩ false = some ((natOfDigits ds : ℚ)) := by
    unfold _parse_num
    rw [show pyFloat ⟨ds⟩ = pyFloatL ds from rfl, hpf]
    rfl
  refine ⟨?_, ?_, ?_, ?_, rfl⟩
  · rw [clean_amount_eval, hlow, hnod, subOf_c_digits ds hdig, hpn]
  · have hmem : ∀ c ∈ ds ++ ['c'], lowerChar c = c ∧ ¬ c = '$' := by
      intro c hc
      rcases List.mem_append.1 hc with h1 | h2
      · exact ⟨digit_lower (hdig c h1), digit_ne (hdig c h1) '$' rfl⟩
      · simp only [List.mem_singleton] at h2
        subst h2
        exact ⟨rfl, by decide⟩
    have hlow2 : pyLowerL (ds ++ ['c']) = ds ++ ['c'] :=
      lower_fix (fun c hc => (hmem c hc).1)
    have hnod2 : List.filter (fun c => ¬ c = '$') (ds ++ ['c']) = ds ++ ['c'] :=
      filter_nodollar (fun c hc => (hmem c hc).2)
    have hpfn : pyFloatL (ds ++ ['c']) = none :=
      pyFloat_digits_trail 'c' [] hne hdig rfl (by decide) (by decide) (by decide)
        (by intro c hc; simp only [List.mem_singleton] at hc; subst hc; rfl)
    have hnone : _parse_num ⟨ds ++ ['c']⟩ (subOf ['c'] (ds ++ ['c'])) = none := by
      unfold _parse_num
      rw [show pyFloat ⟨ds ++ ['c']⟩ = pyFloatL (ds ++ ['c']) from rfl, hpfn]
      rfl
    have hre : reFirstNum (ds ++ ['c']) = some (⟨ds⟩, "c") := by
      rw [hds, List.cons_append, reFirstNum_digit_head _ hd, ← List.cons_append, ← hds]
      rw [matchNumAt_digits_trail ['c'] hdig (Or.inr ⟨'c', [], rfl, rfl, by decide, rfl⟩)]
      rfl
    rw [clean_amount_eval, hlow2, hnod2, hnone]
    dsimp only
    rw [hre]
    dsimp only
    unfold _parse_num
    rw [show pyFloat ⟨ds⟩ = pyFloatL ds from rfl, hpf]
    rfl
  · have hmem : ∀ c ∈ ds ++ ['¢'], lowerChar c = c ∧ ¬ c = '$' := by
      intro c hc
      rcases List.mem_append.1 hc with h1 | h2
      · exact ⟨digit_lower (hdig c h1), digit_ne (hdig c h1) '$' rfl⟩
      · simp only [List.mem_singleton] at h2
        subst h2
        exact ⟨rfl, by decide⟩
    have hlow2 : pyLowerL (ds ++ ['¢']) = ds ++ ['¢'] :=
      lower_fix (fun c hc => (hmem c hc).1)
    have hnod2 : List.filter (fun c => ¬ c = '$') (ds ++ ['¢']) = ds ++ ['¢'] :=
      filter_nodollar (fun c hc => (hmem c hc).2)
    have hpfn : pyFloatL (ds ++ ['¢']) = none :=
      pyFloat_digits_trail '¢' [] hne hdig rfl (by decide) (by decide) (by decide)
        (by intro c hc; simp only [List.mem_singleton] at hc; subst hc; rfl)
    have hnone : _parse_num ⟨ds ++ ['¢']⟩ (subOf ['c'] (ds ++ ['¢'])) = none := by
      unfold _parse_num
      rw [show pyFloat ⟨ds ++ ['¢']⟩ = pyFloatL (ds ++ ['¢']) from rfl, hpfn]
      rfl
    have hre : reFirstNum (ds ++ ['¢']) = some (⟨ds⟩, "¢") := by
      rw [hds, List.cons_append, reFirstNum_digit_head _ hd, ← List.cons_append, ← hds]
      rw [matchNumAt_digits_trail ['¢'] hdig (Or.inr ⟨'¢', [], rfl, rfl, by decide, rfl⟩)]
      rfl
    rw [clean_amount_eval, hlow2, hnod2, hnone]
    dsimp only
    rw [hre]
    dsimp only
    unfold _parse_num
    rw [show pyFloat ⟨ds⟩ = pyFloatL ds from rfl, hpf]
    rfl
  · have hlow4 : pyLowerL ('c' :: ds) = 'c' :: ds := by
      refine lower_fix (fun c hc => ?_)
      rcases List.mem_cons.1 hc with rfl | h1
      · rfl
      · exact digit_lower (hdig c h1)
    have hnod4 : List.filter (fun c => ¬ c = '$') ('c' :: ds) = 'c' :: ds := by
      refine filter_nodollar (fun c hc => ?_)
      rcases List.mem_cons.1 hc with rfl | h1
      · decide
      · exact digit_ne (hdig c h1) '$' rfl
    have hstrip4 : pyStripL ('c' :: ds) = 'c' :: ds := by
      refine stripL_allF (fun c hc => ?_)
      rcases List.mem_cons.1 hc with rfl | h1
      · rfl
      · exact digit_not_ws (hdig c h1)
    have hpfn4 : pyFloatL ('c' :: ds) = none := by
      simp only [pyFloatL, hstrip4]
      rw [show signSplit ('c' :: ds) = (1, 'c' :: ds) by
        simp only [signSplit]; rw [if_neg (by decide), if_neg (by decide)]]
      rw [takeWhile_headF ds rfl, dropWhile_headF ds rfl, fracSplit_noDot ds (by decide)]
      rw [if_pos ⟨rfl, rfl⟩]
    have hnone4 : _parse_num ⟨'c' :: ds⟩ (subOf ['c'] ('c' :: ds)) = none := by
      unfold _parse_num
      rw [show pyFloat ⟨'c' :: ds⟩ = pyFloatL ('c' :: ds) from rfl, hpfn4]
      rfl
    have hre4 : reFirstNum ('c' :: ds) = some (⟨ds⟩, "") := by
      unfold reFirstNum
      rw [if_neg (by decide)]
      rw [hds, reFirstNum_digit_head _ hd, ← hds]
      have h0 := matchNumAt_digits_trail [] hdig (Or.inl rfl)
      rw [List.append_nil] at h0
      rw [h0]
      rfl
    rw [clean_amount_eval, hlow4, hnod4, hnone4]
    dsimp only
    rw [hre4]
    dsimp only
    unfold _parse_num
    rw [show pyFloat ⟨ds⟩ = pyFloatL ds from rfl, hpf]
    rfl

/-- Claim C8 is violated by the code: in the token 1.5c x the cleaned
token does not end with a cents-marker suffix, so by the claim it would
be parsed directly (and fail, yielding None); the code instead finds the
first number 1.5, sees the c straight after it, and returns 0.015. -/
theorem cents_marker_not_suffix_based :
    specParseClaim "1.5c x" = none ∧
    clean_amount_cell (mkCell "1.5c x") = some ((3 : ℚ) / 200) ∧
    ¬ (some ((3 : ℚ) / 200) = (none : Option ℚ)) := by
  refine ⟨rfl, ?_, by simp⟩
  have h1 : clean_amount_cell (mkCell "1.5c x") = _parse_num "1.5" true := rfl
  have h2 : pyFloat "1.5" = some (1 * ((1 : ℚ) + 5 / 10 ^ 1)) := rfl
  rw [h1]
  unfold _parse_num
  rw [h2]
  simp only [Option.map_some']
  norm_num

/-- Claim C8 amended, witness at the token 42: 42 parses to 42, 42c and
42 with a cent sign parse to 0.42, c42 parses to 42, and a dash parses
to None. -/
theorem amount_parse_first_number_rule_witness :
    clean_amount_cell (mkCell ⟨['4', '2']⟩) = some ((natOfDigits ['4', '2'] : ℚ)) ∧
    clean_amount_cell (mkCell ⟨['4', '2'] ++ ['c']⟩) =
      some ((natOfDigits ['4', '2'] : ℚ) / 100) ∧
    clean_amount_cell (mkCell ⟨['4', '2'] ++ ['¢']⟩) =
      some ((natOfDigits ['4', '2'] : ℚ) / 100) ∧
    clean_amount_cell (mkCell ⟨'c' :: ['4', '2']⟩) = some ((natOfDigits ['4', '2'] : ℚ)) ∧
    clean_amount_cell (mkCell "-") = none :=
  amount_parse_first_number_rule ['4', '2'] (by decide) (by decide)

/-! ### Lemmas for normalise -/

theorem charOfNat_toNat {n : Nat} (h : n < 1000) : (Char.ofNat n).toNat = n := by
  unfold Char.ofNat
  rw [dif_pos (Or.inl (by omega))]
  rfl

theorem upperChar_idem (c : Char) : upperChar (upperChar c) = upperChar c := by
  unfold upperChar
  by_cases h : 97 ≤ c.toNat ∧ c.toNat ≤ 122
  · rw [if_pos h, if_neg (by rw [charOfNat_toNat (by omega)]; omega)]
  · rw [if_neg h, if_neg h]

theorem upperChar_ws (c : Char) : isWsChar (upperChar c) = isWsChar c := by
  unfold upperChar
  by_cases h : 97 ≤ c.toNat ∧ c.toNat ≤ 122
  · rw [if_pos h]
    unfold isWsChar
    rw [charOfNat_toNat (by omega)]
    trans false
    · simp only [Bool.or_eq_false_iff, decide_eq_false_iff_not]
      omega
    · symm
      simp only [Bool.or_eq_false_iff, decide_eq_false_iff_not]
      omega
  · rw [if_neg h]

theorem pyUpperL_idem (l : Chars) : pyUpperL (pyUpperL l) = pyUpperL l := by
  unfold pyUpperL
  rw [List.map_map]
  exact List.map_congr_left (fun a _ => upperChar_idem a)

theorem dropWhile_shape (p : Char → Bool) :
    ∀ l : Chars, l.dropWhile p = [] ∨
      ∃ h t, l.dropWhile p = h :: t ∧ p h = false := by
  intro l
  induction l with
  | nil => left; rfl
  | cons a t ih =>
    by_cases hp : p a = true
    · rw [List.dropWhile_cons, if_pos hp]
      exact ih
    · right
      refine ⟨a, t, ?_, by simpa using hp⟩
      rw [List.dropWhile_cons, if_neg hp]

theorem endDrop_cons_of_ne (p : Char → Bool) (a : Char) {t r : Chars}
    (ht : endDrop p t = r) (hr : r ≠ []) : endDrop p (a :: t) = a :: r := by
  unfold endDrop
  rw [ht]
  cases r with
  | nil => exact absurd rfl hr
  | cons b bs => rfl

theorem endDrop_cons_nil (p : Char → Bool) (a : Char) {t : Chars}
    (ht : endDrop p t = []) : endDrop p (a :: t) = if p a then [] else [a] := by
  unfold endDrop
  rw [ht]

theorem endDrop_shapeL (p : Char → Bool) :
    ∀ l : Chars, endDrop p l = [] ∨
      ∃ l' z, endDrop p l = l' ++ [z] ∧ p z = false := by
  intro l
  induction l with
  | nil => left; rfl
  | cons a t ih =>
    rcases ih with h0 | ⟨l', z, hz, hpz⟩
    · rw [endDrop_cons_nil p a h0]
      by_cases hp : p a = true
      · left; rw [if_pos hp]
      · right
        refine ⟨[], a, ?_, by simpa using hp⟩
        rw [if_neg hp, List.nil_append]
    · right
      refine ⟨a :: l', z, ?_, hpz⟩
      rw [endDrop_cons_of_ne p a hz (by simp)]
      exact (List.cons_append a l' [z]).symm

theorem endDrop_last_keep {p : Char → Bool} {z : Char} (hz : p z = false) :
    ∀ l : Chars, endDrop p (l ++ [z]) = l ++ [z] := by
  intro l
  induction l with
  | nil =>
    rw [List.nil_append, endDrop_cons_nil p z (show endDrop p [] = [] from rfl),
      if_neg (by simp [hz])]
  | cons a t ih =>
    rw [List.cons_append, endDrop_cons_of_ne p a ih (by simp)]

theorem stripL_fix {l : Chars}
    (hhead : l = [] ∨ ∃ h t, l = h :: t ∧ isWsChar h = false)
    (hlast : l = [] ∨ ∃ l' z, l = l' ++ [z] ∧ isWsChar z = false) :
    pyStripL l = l := by
  rcases hhead with rfl | ⟨h, t, rfl, hh⟩
  · rfl
  rcases hlast with he | ⟨l', z, hz, hzw⟩
  · exact absurd he (by simp)
  unfold pyStripL
  rw [dropWhile_headF t (by simpa using hh), hz, endDrop_last_keep hzw]

theorem stripL_head (l : Chars) :
    pyStripL l = [] ∨ ∃ h t, pyStripL l = h :: t ∧ isWsChar h = false := by
  unfold pyStripL
  rcases dropWhile_shape isWsChar l with h0 | ⟨h, t, hd, hw⟩
  · left
    rw [h0]
    rfl
  · rw [hd]
    cases hE : endDrop isWsChar t with
    | nil =>
      rw [endDrop_cons_nil _ h hE, if_neg (by simp [hw])]
      right
      exact ⟨h, [], rfl, hw⟩
    | cons b bs =>
      rw [endDrop_cons_of_ne _ h hE (by simp)]
      right
      exact ⟨h, b :: bs, rfl, hw⟩

theorem stripL_last (l : Chars) :
    pyStripL l = [] ∨ ∃ l' z, pyStripL l = l' ++ [z] ∧ isWsChar z = false := by
  unfold pyStripL
  exact endDrop_shapeL _ _

theorem mem_subOf {c : Char} : ∀ l : Chars, c ∈ l → subOf [c] l = true := by
  intro l
  induction l with
  | nil => intro h; exact absurd h (List.not_mem_nil c)
  | cons a t ih =>
    intro h
    unfold subOf
    rcases List.mem_cons.1 h with rfl | hm
    · simp [begMatch]
    · rw [ih hm]
      simp

/-- normaliseL is idempotent and its output always carries a dot. -/
theorem normaliseL_spec (l : Chars) :
    normaliseL (normaliseL l) = normaliseL l ∧
    subOf ['.'] (normaliseL l) = true := by
  have huhead : pyUpperL (pyStripL l) = [] ∨
      ∃ h t, pyUpperL (pyStripL l) = h :: t ∧ isWsChar h = false := by
    rcases stripL_head l with h0 | ⟨h, t, hd, hw⟩
    · left
      rw [h0]
      rfl
    · right
      refine ⟨upperChar h, pyUpperL t, ?_, ?_⟩
      · rw [hd]
        rfl
      · rw [upperChar_ws]
        exact hw
  have hulast : pyUpperL (pyStripL l) = [] ∨
      ∃ l' z, pyUpperL (pyStripL l) = l' ++ [z] ∧ isWsChar z = false := by
    rcases stripL_last l with h0 | ⟨l', z, hd, hw⟩
    · left
      rw [h0]
      rfl
    · right
      refine ⟨pyUpperL l', upperChar z, ?_, ?_⟩
      · rw [hd]
        unfold pyUpperL
        rw [List.map_append]
        rfl
      · rw [upperChar_ws]
        exact hw
  have hstripu : pyStripL (pyUpperL (pyStripL l)) = pyUpperL (pyStripL l) :=
    stripL_fix huhead hulast
  have hupperu : pyUpperL (pyUpperL (pyStripL l)) = pyUpperL (pyStripL l) :=
    pyUpperL_idem _
  by_cases hdot : subOf ['.'] (pyUpperL (pyStripL l)) = true
  · have hnl : normaliseL l = pyUpperL (pyStripL l) := by
      simp only [normaliseL]
      rw [if_pos hdot]
    refine ⟨?_, ?_⟩
    · rw [hnl]
      simp only [normaliseL, hstripu, hupperu]
      rw [if_pos hdot]
    · rw [hnl]
      exact hdot
  · have hdot' : subOf ['.'] (pyUpperL (pyStripL l)) = false :=
      Bool.not_eq_true _ ▸ eq_false_of_ne_true hdot
    have hnl : normaliseL l = pyUpperL (pyStripL l) ++ ['.', 'A', 'X'] := by
      simp only [normaliseL]
      rw [if_neg hdot]
    have hh2 : pyUpperL (pyStripL l) ++ ['.', 'A', 'X'] = [] ∨
        ∃ h t, pyUpperL (pyStripL l) ++ ['.', 'A', 'X'] = h :: t ∧ isWsChar h = false := by
      rcases huhead with h0 | ⟨h, t, hd, hw⟩
      · right
        rw [h0, List.nil_append]
        exact ⟨'.', ['A', 'X'], rfl, rfl⟩
      · right
        rw [hd, List.cons_append]
        exact ⟨h, t ++ ['.', 'A', 'X'], rfl, hw⟩
    have hl2 : pyUpperL (pyStripL l) ++ ['.', 'A', 'X'] = [] ∨
        ∃ l' z, pyUpperL (pyStripL l) ++ ['.', 'A', 'X'] = l' ++ [z] ∧
          isWsChar z = false := by
      right
      refine ⟨pyUpperL (pyStripL l) ++ ['.', 'A'], 'X', ?_, rfl⟩
      rw [List.append_assoc]
      rfl
    have hstrip2 : pyStripL (pyUpperL (pyStripL l) ++ ['.', 'A', 'X']) =
        pyUpperL (pyStripL l) ++ ['.', 'A', 'X'] := stripL_fix hh2 hl2
    have hupper2 : pyUpperL (pyUpperL (pyStripL l) ++ ['.', 'A', 'X']) =
        pyUpperL (pyStripL l) ++ ['.', 'A', 'X'] := by
      unfold pyUpperL
      rw [List.map_append]
      unfold pyUpperL at hupperu
      rw [hupperu]
      rfl
    have hdot2 : subOf ['.'] (pyUpperL (pyStripL l) ++ ['.', 'A', 'X']) = true :=
      mem_subOf _ (by simp)
    refine ⟨?_, ?_⟩
    · rw [hnl]
      simp only [normaliseL, hstrip2, hupper2]
      rw [if_pos hdot2]
    · rw [hnl]
      exact hdot2

/-- normalise at the character-list level. -/
theorem normalise_data (t : String) : normalise t = ⟨normaliseL t.data⟩ := by
  by_cases h : subOf ['.'] (pyUpperL (pyStripL t.data)) = true
  · simp only [normalise, normaliseL]
    rw [if_pos (show strContains (pyUpper (pyStrip t)) "." = true from h),
      if_pos h]
    rfl
  · simp only [normalise, normaliseL]
    rw [if_neg (show ¬ strContains (pyUpper (pyStrip t)) "." = true from h),
      if_neg h]
    rfl

/-- Claim C10 is violated in one particular: an already-qualified code is
not merely uppercased — it is also whitespace-trimmed.  normalise of
" bhp.ax " is BHP.AX, not the plain uppercase " BHP.AX " of the input. -/
theorem normalise_not_only_uppercased :
    normalise " bhp.ax " = "BHP.AX" ∧ pyUpper " bhp.ax " = " BHP.AX " ∧
    ¬ ("BHP.AX" : String) = " BHP.AX " :=
  ⟨rfl, rfl, by simp⟩

/-- Claim C10 amended: normalise is idempotent, its output always
carries a market-suffix dot, a dot-carrying code is trimmed and
uppercased with nothing appended, and a bare code is trimmed, uppercased
and given the .AX suffix. -/
theorem normalise_idempotent_and_suffixed (s : String) :
    normalise (normalise s) = normalise s ∧
    strContains (normalise s) "." = true ∧
    (strContains (pyUpper (pyStrip s)) "." = true →
      normalise s = pyUpper (pyStrip s)) ∧
    (strContains (pyUpper (pyStrip s)) "." = false →
      normalise s = pyUpper (pyStrip s) ++ ".AX") := by
  refine ⟨?_, ?_, ?_, ?_⟩
  · rw [normalise_data s, normalise_data ⟨normaliseL s.data⟩]
    exact congrArg String.mk (normaliseL_spec s.data).1
  · rw [normalise_data s]
    exact (normaliseL_spec s.data).2
  · intro h
    simp only [normalise]
    rw [if_pos h]
  · intro h
    simp only [normalise]
    rw [if_neg (by simp [h])]

/-- Claim C10 amended, witness: idempotence at a bare code and the
trim-and-uppercase behaviour at a padded qualified code. -/
theorem normalise_idempotent_witness :
    normalise (normalise "bhp") = normalise "bhp" ∧
    normalise " bhp.ax " = pyUpper (pyStrip " bhp.ax ") :=
  ⟨(normalise_idempotent_and_suffixed "bhp").1,
   (normalise_idempotent_and_suffixed " bhp.ax ").2.2.1 rfl⟩

/-- The row loop of a table is exactly the accumStep fold over the
parsed triples of its rows: whenever every cell lookup succeeds, the
monadic fold of rowStep computes foldl accumStep of the rowFields
results (tying the aggregation theorems to the pipeline). -/
theorem rowLoop_eq_accum (w : PyDate × PyDate) (hdrsLen ei di : Nat) (fi : Option Nat) :
    ∀ (rows : List (List Cell)) (l : List RowTriple) (acc : ℚ × ℚ),
      rowTriples hdrsLen ei di fi rows = Except.ok l →
      rows.foldlM (rowStep w hdrsLen ei di fi) acc =
        Except.ok (l.foldl (accumStep w) acc) := by
  intro rows
  induction rows with
  | nil =>
    intro l acc h
    simp only [rowTriples, Except.ok.injEq] at h
    subst h
    rfl
  | cons r rs ih =>
    intro l acc h
    cases hr : rowFields hdrsLen ei di fi r with
    | error e => simp [rowTriples, hr, Except.bind] at h
    | ok t =>
      cases hrs : rowTriples hdrsLen ei di fi rs with
      | error e => simp [rowTriples, hr, hrs, Except.bind] at h
      | ok ts =>
        have hl : t :: ts = l := by
          simpa [rowTriples, hr, hrs] using h
        subst hl
        have hstep : rowStep w hdrsLen ei di fi acc r = .ok (accumStep w acc t) := by
          unfold rowStep
          rw [hr]
          rfl
        rw [List.foldlM_cons, hstep]
        simpa using ih ts (accumStep w acc t) hrs
